import Mathlib

/-
Verification of the landmark-alignment plugins (ProcrustesTransform,
DelaunayTransform) of openbr's src/openbr/plugins/landmarks.cpp, as a shallow
embedding in Lean.  Float arithmetic is modelled over the reals (Procrustes
normalization, which takes a square root) and over the rationals (the Delaunay
bounds checks, which only compare and add coordinates); 8-bit pixel arithmetic
of the compositing loop is modelled over Nat with explicit bitwise-and and
saturation.  External library calls (Eigen's JacobiSVD, OpenCV's Subdiv2D,
warpAffine, fillConvexPoly, boundingRect) are parameters of the model; the
control flow, metadata updates and the compositing loop itself are translated
line by line from the source.
-/

/-! ## Procrustes alignment (ProcrustesTransform, landmarks.cpp lines 20-138) -/

/-- A 2D point (QPointF), modelled over the reals. -/
abbrev Pt := ℝ × ℝ

/-- A rectangle (QRectF): origin (x,y), width w, height h. -/
structure PRect where
  x : ℝ
  y : ℝ
  w : ℝ
  h : ℝ

instance : Inhabited PRect := ⟨⟨0, 0, 0, 0⟩⟩

/-- The four corners of a QRectF in the order the source appends them:
topLeft, topRight, bottomLeft, bottomRight (lines 41-44 and 91-94). -/
noncomputable def PRect.corners (r : PRect) : List Pt :=
  [(r.x, r.y), (r.x + r.w, r.y), (r.x, r.y + r.h), (r.x + r.w, r.y + r.h)]

/-- A 2x2 matrix, the rotation returned by the SVD step (line 108). -/
structure Rot where
  r00 : ℝ
  r01 : ℝ
  r10 : ℝ
  r11 : ℝ

/-- One row of srcMat*R (line 119): row (x,y) maps to
(x*R00 + y*R10, x*R01 + y*R11). -/
noncomputable def applyRot (R : Rot) (p : Pt) : Pt :=
  (p.1 * R.r00 + p.2 * R.r10, p.1 * R.r01 + p.2 * R.r11)

/-- The slice of a br::Template the Procrustes transform touches: the image
matrix (kept abstract), the landmark points, the rects, and the metadata
entry stored under the key ProcrustesStats. -/
structure PTemplate (Img : Type) where
  img : Img
  points : List Pt
  rects : List PRect
  stats : Option (List ℝ)

/-- Observable outcome of ProcrustesTransform::project: qFatal aborts the
run, qWarning plus passthrough, or a normal result.  The source of project
contains no qFatal call; the constructor is present so that claims about
aborting can be stated (train does abort, via qFatal at line 57). -/
inductive PResult (Img : Type) where
  | fatal : PResult Img
  | warned : PTemplate Img → PResult Img
  | ok : PTemplate Img → PResult Img

def PResult.isFatal {Img : Type} : PResult Img → Bool
  | .fatal => true
  | _ => false

def PResult.imageOf {Img : Type} : PResult Img → Option Img
  | .fatal => none
  | .warned t => some t.img
  | .ok t => some t.img

def PResult.pointsOf {Img : Type} : PResult Img → List Pt
  | .fatal => []
  | .warned t => t.points
  | .ok t => t.points

def PResult.statsOf {Img : Type} : PResult Img → Option (List ℝ)
  | .fatal => none
  | .warned t => t.stats
  | .ok t => t.stats

/-- Arithmetic mean of a point list (cv::mean, lines 47 and 96): per-coordinate
sum divided by the number of points. -/
noncomputable def meanPt (ps : List Pt) : Pt :=
  ((ps.map Prod.fst).sum / (ps.length : ℝ), (ps.map Prod.snd).sum / (ps.length : ℝ))

/-- Subtract the mean from every point (lines 48 and 97). -/
noncomputable def centerPts (ps : List Pt) : List Pt :=
  ps.map (fun p => (p.1 - (meanPt ps).1, p.2 - (meanPt ps).2))

/-- Square of the flattened L2 norm of a point list: sum of x^2 + y^2. -/
noncomputable def flatNormSq (ps : List Pt) : ℝ :=
  (ps.map (fun p => p.1 ^ 2 + p.2 ^ 2)).sum

/-- cv::norm of a point vector (lines 51 and 100): the L2 norm of the
flattened coordinate vector. -/
noncomputable def flatNorm (ps : List Pt) : ℝ :=
  Real.sqrt (flatNormSq ps)

/-- Normalization as performed at lines 47-52 / 96-102: center at the mean,
then divide every coordinate by the norm of the centered list. -/
noncomputable def normalizePoints (ps : List Pt) : List Pt :=
  (centerPts ps).map
    (fun p => (p.1 / flatNorm (centerPts ps), p.2 / flatNorm (centerPts ps)))

/-- The full point set of a record: landmark points followed by the four
corners of the last rect (lines 91-94; the last rect is assumed to be the
bounding box). Only evaluated behind the nonempty-rects guard. -/
noncomputable def fullPointSet {Img : Type} (t : PTemplate Img) : List Pt :=
  t.points ++ (t.rects.getLastD default).corners

/-- The pre-normalization centroid of a record's full point set (line 96). -/
noncomputable def procrustesMean {Img : Type} (t : PTemplate Img) : Pt :=
  meanPt (fullPointSet t)

/-- The pre-normalization scale of a record (line 100): norm of the centered
full point set. -/
noncomputable def procrustesNorm {Img : Type} (t : PTemplate Img) : ℝ :=
  flatNorm (centerPts (fullPointSet t))

/-- The normalized shape of a record (srcMat rows, lines 101-105). -/
noncomputable def procrustesNormalized {Img : Type} (t : PTemplate Img) : List Pt :=
  normalizePoints (fullPointSet t)

/-- ProcrustesTransform::project (lines 79-124).  svdRot models the external
Eigen step (lines 107-108): the SVD-derived rotation of
srcMat^T * meanShape, as a function of the normalized shape (the trained
meanShape is captured inside svdRot).  On the success path the stats list is
stored (lines 112-116) and, when warp is set, the rotated normalized points
are appended to the record's points (lines 118-123). -/
noncomputable def procrustesProject {Img : Type} (svdRot : List Pt → Rot) (warp : Bool)
    (t : PTemplate Img) : PResult Img :=
  if t.points.isEmpty || t.rects.isEmpty then .warned t
  else
    let normed := procrustesNormalized t
    let R := svdRot normed
    let base := { t with stats := some [R.r00, R.r10, R.r11, R.r01,
                                        (procrustesMean t).1, (procrustesMean t).2,
                                        procrustesNorm t] }
    if warp then
      .ok { base with points := base.points ++ normed.map (applyRot R) }
    else .ok base

/-- A training record: the slice of a br::Template used by train. -/
structure TrainRec where
  points : List Pt
  rects : List PRect

/-- A record is used by train iff it has points and rects (line 38 skips the
others). -/
def usableRec (r : TrainRec) : Bool :=
  !(r.points.isEmpty || r.rects.isEmpty)

/-- Full point set of a training record (lines 41-44). -/
noncomputable def trainFull (r : TrainRec) : List Pt :=
  r.points ++ (r.rects.getLastD default).corners

/-- Outcome of ProcrustesTransform::train: qFatal (line 57) or a mean shape. -/
inductive TrainResult where
  | fatal : TrainResult
  | ok : List Pt → TrainResult

def TrainResult.isFatal : TrainResult → Bool
  | .fatal => true
  | _ => false

/-- The mean-shape computation of lines 60-76: per-index average of the
normalized shapes (the source indexes every shape at i, assuming uniform
point counts; out-of-range indexing is modelled by getD). -/
noncomputable def meanShapeOf (shapes : List (List Pt)) : List Pt :=
  (List.range (shapes.headD []).length).map (fun i =>
    ((shapes.map (fun s => (s.getD i (0, 0)).1)).sum / (shapes.length : ℝ),
     (shapes.map (fun s => (s.getD i (0, 0)).2)).sum / (shapes.length : ℝ)))

/-- ProcrustesTransform::train (lines 29-77): skip records without points or
rects, normalize the rest, qFatal when none remain, else average. -/
noncomputable def procrustesTrain (data : List TrainRec) : TrainResult :=
  let normalizedPoints := (data.filter usableRec).map (fun r => normalizePoints (trainFull r))
  if normalizedPoints.isEmpty then .fatal
  else .ok (meanShapeOf normalizedPoints)

/-! ## Delaunay triangulation (DelaunayTransform, landmarks.cpp lines 145-278) -/

/-- A 2D point for the Delaunay bounds arithmetic, modelled over the
rationals (the transform only compares and adds coordinates). -/
abbrev QPt := ℚ × ℚ

/-- A rectangle for the Delaunay transform. -/
structure QRect where
  x : ℚ
  y : ℚ
  w : ℚ
  h : ℚ
deriving DecidableEq

instance : Inhabited QRect := ⟨⟨0, 0, 0, 0⟩⟩

/-- The four corners in the order appended at lines 169-172. -/
def QRect.corners (r : QRect) : List QPt :=
  [(r.x, r.y), (r.x + r.w, r.y), (r.x, r.y + r.h), (r.x + r.w, r.y + r.h)]

/-- A triangle from Subdiv2D::getTriangleList (a Vec6f in the source,
read back as three vertices at lines 196-198). -/
structure DTri where
  a : QPt
  b : QPt
  c : QPt
deriving DecidableEq

/-- The three vertices of a triangle, in order. -/
def DTri.vertices (t : DTri) : List QPt :=
  [t.a, t.b, t.c]

/-- The slice of a br::Template the Delaunay transform touches: the image
(abstract) with its matrix dimensions (src.m().rows / src.m().cols, lines
165-166), points, rects, and the metadata entry stored under the key
DelaunayTriangles. -/
structure DTemplate (Img : Type) where
  img : Img
  rows : ℕ
  cols : ℕ
  points : List QPt
  rects : List QRect
  triangles : Option (List QPt)
deriving DecidableEq

/-- Outcome of DelaunayTransform::project: the empty-input warning
passthrough (line 159-163), the boundary warning passthrough (lines
178-182), or a normal result.  The function is total: no path throws. -/
inductive DResult (Img : Type) where
  | warnedEmpty : DTemplate Img → DResult Img
  | warnedBoundary : DTemplate Img → DResult Img
  | ok : DTemplate Img → DResult Img
deriving DecidableEq

/-- The result is a warning passthrough of the given record: the original
record is emitted unchanged (image and metadata identical) together with a
qWarning, and no exception escapes. -/
def DResult.isWarnPassthroughOf {Img : Type} : DResult Img → DTemplate Img → Prop
  | .warnedEmpty u, t => u = t
  | .warnedBoundary u, t => u = t
  | .ok _, _ => False

/-- The full point set inserted into the subdivision: landmarks followed by
the four corners of the last rect (lines 169-172). -/
def dFullPoints {Img : Type} (t : DTemplate Img) : List QPt :=
  t.points ++ (t.rects.getLastD default).corners

/-- The insertion-time validity check of line 178: a point is rejected when
x < 0, y < 0, y >= rows or x >= cols. -/
def oobPoint (cols rows : ℕ) (p : QPt) : Bool :=
  decide (p.1 < 0) || decide (p.2 < 0) || decide (p.2 ≥ (rows : ℚ)) || decide (p.1 ≥ (cols : ℚ))

/-- The post-triangulation filter of line 199: a triangle is kept unless some
vertex has x > cols, y > rows, x < 0 or y < 0 (the closed box). -/
def triValid (cols rows : ℕ) (tri : DTri) : Bool :=
  tri.vertices.all fun v =>
    !(decide (v.1 > (cols : ℚ)) || decide (v.2 > (rows : ℚ)) || decide (v.1 < 0) || decide (v.2 < 0))

/-- The loop of lines 191-202: walk the triangle list and append the three
vertices of every triangle that passes the filter. -/
def validTriangles (cols rows : ℕ) : List DTri → List QPt
  | [] => []
  | tri :: rest =>
      if triValid cols rows tri then tri.vertices ++ validTriangles cols rows rest
      else validTriangles cols rows rest

/-- The three virtual outer vertices OpenCV's Subdiv2D creates for the
bounding rect Rect(0,0,cols,rows): big = 3 * max(width, height), at
(big, 0), (0, big) and (-big, -big).  Subdiv2D is an external library;
getTriangleList may return triangles using these vertices, which is what
the line-199 filter removes. -/
def virtualPoints (cols rows : ℕ) : List QPt :=
  [((3 * max cols rows : ℕ), 0), (0, (3 * max cols rows : ℕ)),
   (-(3 * max cols rows : ℕ), -(3 * max cols rows : ℕ))]

/-- DelaunayTransform::project (lines 154-277).  The external pieces are
parameters: subdiv models Subdiv2D construction over Rect(0,0,cols,rows),
insertion of the full point set in order and getTriangleList (lines
174-187); warpImg models the per-triangle affine resampling and compositing
of lines 204-269 (its compositing core is modelled exactly by compositeLoop
below); newRect models boundingRect over the mapped vertices (lines
271-273).  The control flow, the bounds checks, the triangle filter and the
metadata updates are translated from the source: empty points or rects warn
and pass the record through; any out-of-bounds point warns and passes the
record through; otherwise the filtered triangle list is stored under
DelaunayTriangles on both the warp and the no-warp path (line 276), and
with warp set the image is replaced by the composite and the rects by the
single bounding rect of the mapped points. -/
def delaunayProject {Img : Type} (subdiv : List QPt → ℕ → ℕ → List DTri)
    (warpImg : DTemplate Img → List QPt → Img)
    (newRect : DTemplate Img → List QPt → QRect)
    (warp : Bool) (t : DTemplate Img) : DResult Img :=
  if t.points.isEmpty || t.rects.isEmpty then .warnedEmpty t
  else
    let full := dFullPoints t
    if full.any (oobPoint t.cols t.rows) then .warnedBoundary t
    else
      let valid := validTriangles t.cols t.rows (subdiv full t.cols t.rows)
      if warp then
        .ok { t with img := warpImg t valid, rects := [newRect t valid],
                     triangles := some valid }
      else .ok { t with triangles := some valid }

/-! ## The compositing loop (lines 245-269), pixel model

The image is single-channel 8-bit (the source applies bitwise_and between
the accumulated output and a CV_8UC1 mask, which OpenCV only accepts for
matching types).  A pixel value is a Nat below 256; an image is a function
from pixels to values; a rasterized fillConvexPoly mask holds 255 inside
the triangle and 0 outside, modelled as a Bool function. -/

/-- The value of a fillConvexPoly mask pixel (line 256): 255 inside, 0
outside. -/
def maskVal {P : Type} (m : P → Bool) (p : P) : ℕ :=
  if m p then 255 else 0

/-- Saturating 8-bit addition: cv::Mat operator+= saturates CV_8U. -/
def satAdd (a b : ℕ) : ℕ :=
  min (a + b) 255

/-- The overlap suppression of lines 260-264, at flat-list position i (the
source loop steps i by 3 per triangle, so i > 0 exactly for triangles after
the first): overlap = dst AND mask, and mask pixels with nonzero overlap
are zeroed. -/
def suppressMask {P : Type} (i : ℕ) (dst : P → ℕ) (m : P → Bool) : P → ℕ :=
  fun p => if 0 < i ∧ Nat.land (dst p) (maskVal m p) ≠ 0 then 0 else maskVal m p

/-- One iteration of the compositing loop (lines 245-268) for the triangle
at flat position i: output = buffer AND suppressed mask (line 266), then
dst += output (line 268). -/
def compositeStep {P : Type} (i : ℕ) (dst : P → ℕ) (buffer : P → ℕ) (m : P → Bool) : P → ℕ :=
  fun p => satAdd (dst p) (Nat.land (buffer p) (suppressMask i dst m p))

/-- The loop over triangles (for i = 0; i < size; i += 3): each list entry
carries the warpAffine buffer (line 247) and the rasterized mask (line 256)
of one triangle. -/
def compositeAux {P : Type} : ℕ → List ((P → ℕ) × (P → Bool)) → (P → ℕ) → (P → ℕ)
  | _, [], dst => dst
  | i, bm :: rest, dst => compositeAux (i + 3) rest (compositeStep i dst bm.1 bm.2)

/-- The whole compositing pass: dst starts as Mat::zeros (line 205). -/
def compositeLoop {P : Type} (tris : List ((P → ℕ) × (P → Bool))) : P → ℕ :=
  compositeAux 0 tris (fun _ => 0)

/-- The accumulated output after the first n triangles. -/
def compositeUpTo {P : Type} (tris : List ((P → ℕ) × (P → Bool))) (n : ℕ) : P → ℕ :=
  compositeLoop (tris.take n)

/-! ## Concrete instances used by witnesses and counterexamples -/

/-- A concrete stand-in for the SVD step: the identity rotation. -/
noncomputable def rotId : List Pt → Rot := fun _ => ⟨1, 0, 0, 1⟩

/-- A degenerate record: one landmark at (1,1) and a zero-size bounding rect
at (1,1), so the full point set is five copies of (1,1). -/
noncomputable def cexT1 : PTemplate Unit :=
  ⟨(), [(1, 1)], [⟨1, 1, 0, 0⟩], none⟩

/-- A small non-degenerate record: one landmark and a 2x2 bounding rect. -/
noncomputable def cexT4 : PTemplate Unit :=
  ⟨(), [(0, 0)], [⟨0, 0, 2, 2⟩], none⟩

/-- A two-point set with nonzero centered norm. -/
noncomputable def ps7 : List Pt := [(0, 0), (2, 0)]

/-- A concrete stand-in for Subdiv2D: one triangle on inserted points and one
using a virtual outer vertex of the 10x10 subdivision. -/
def subdivW : List QPt → ℕ → ℕ → List DTri :=
  fun _ _ _ => [⟨(1, 1), (2, 2), (5, 5)⟩, ⟨(30, 0), (1, 1), (2, 2)⟩]

/-- A concrete stand-in for the warp compositing (image type Unit). -/
def warpImgW : DTemplate Unit → List QPt → Unit := fun _ _ => ()

/-- A concrete stand-in for boundingRect. -/
def newRectW : DTemplate Unit → List QPt → QRect := fun _ _ => default

/-- A record whose points all lie strictly inside the 10x10 image. -/
def tDel : DTemplate Unit := ⟨(), 10, 10, [(1, 1)], [⟨2, 2, 3, 3⟩], none⟩

/-- A record with an out-of-bounds landmark (negative x). -/
def tOob : DTemplate Unit := ⟨(), 10, 10, [(-1, 2)], [⟨0, 0, 5, 5⟩], none⟩

/-- A one-triangle compositing input over a one-pixel image. -/
def trisW : List ((Fin 1 → ℕ) × (Fin 1 → Bool)) := [(fun _ => 7, fun _ => true)]

/-! ## List-sum helper lemmas -/

theorem listSumMapDiv {α : Type} (l : List α) (f : α → ℝ) (c : ℝ) :
    (l.map fun x => f x / c).sum = (l.map f).sum / c := by
  induction l with
  | nil => simp
  | cons a t ih => simp [ih, add_div]

theorem listSumMapSub {α : Type} (l : List α) (f g : α → ℝ) :
    (l.map fun x => f x - g x).sum = (l.map f).sum - (l.map g).sum := by
  induction l with
  | nil => simp
  | cons a t ih => simp [ih]; ring

theorem listSumMapConst {α : Type} (l : List α) (c : ℝ) :
    (l.map fun _ => c).sum = l.length * c := by
  induction l with
  | nil => simp
  | cons a t ih => simp [ih]; ring

theorem flatNormSq_nonneg (ps : List Pt) : 0 ≤ flatNormSq ps := by
  unfold flatNormSq
  apply List.sum_nonneg
  intro x hx
  obtain ⟨p, _, rfl⟩ := List.mem_map.mp hx
  positivity

/-! ## Claims about ProcrustesTransform -/

/-- C10: ProcrustesTransform::project never modifies the image buffer: on
every path (missing points or rects, warp enabled, warp disabled) the output
record's image equals the input record's image; only metadata changes. -/
theorem procrustes_preserves_image {Img : Type} (svdRot : List Pt → Rot)
    (warp : Bool) (t : PTemplate Img) :
    (procrustesProject svdRot warp t).imageOf = some t.img := by
  unfold procrustesProject
  cases hb : (t.points.isEmpty || t.rects.isEmpty) <;>
    cases warp <;> simp [hb, PResult.imageOf]

/-- C8: on every successful alignment (nonempty points and rects) the
ProcrustesStats metadata is exactly the seven values R00, R10, R11, R01,
meanX, meanY, norm, in that order, where R is the SVD rotation of the
normalized shape, the mean is the pre-normalization centroid and the norm
the pre-normalization scale. -/
theorem procrustes_stats_seven {Img : Type} (svdRot : List Pt → Rot)
    (warp : Bool) (t : PTemplate Img)
    (hp : t.points.isEmpty = false) (hr : t.rects.isEmpty = false) :
    (procrustesProject svdRot warp t).statsOf =
      some [(svdRot (procrustesNormalized t)).r00, (svdRot (procrustesNormalized t)).r10,
            (svdRot (procrustesNormalized t)).r11, (svdRot (procrustesNormalized t)).r01,
            (procrustesMean t).1, (procrustesMean t).2, procrustesNorm t] := by
  unfold procrustesProject
  cases warp <;> simp [hp, hr, PResult.statsOf]

/-- Witness for procrustes_stats_seven at the concrete record cexT4. -/
theorem procrustes_stats_seven_witness :
    (procrustesProject rotId true cexT4).statsOf =
      some [(rotId (procrustesNormalized cexT4)).r00, (rotId (procrustesNormalized cexT4)).r10,
            (rotId (procrustesNormalized cexT4)).r11, (rotId (procrustesNormalized cexT4)).r01,
            (procrustesMean cexT4).1, (procrustesMean cexT4).2, procrustesNorm cexT4] :=
  procrustes_stats_seven rotId true cexT4 (by simp [cexT4]) (by simp [cexT4])

/-- C4 counterexample: the claim says the record's landmark points after
alignment with warp enabled ARE the rotated normalized coordinates; at the
concrete record cexT4 they are not (the rotated points are appended after
the original landmark, so the lists differ). -/
theorem procrustes_points_not_replaced :
    (procrustesProject rotId true cexT4).pointsOf ≠
      (procrustesNormalized cexT4).map (applyRot (rotId (procrustesNormalized cexT4))) := by
  intro h
  have hlen := congrArg List.length h
  simp [procrustesProject, cexT4, PResult.pointsOf, procrustesNormalized,
        normalizePoints, centerPts, fullPointSet, PRect.corners] at hlen

/-- C4 (amended): when warp is enabled, alignment APPENDS the rotated
normalized point set to the record's existing landmark points: the output
points are the original points followed by the rotated normalized
coordinates of the full point set. -/
theorem procrustes_warp_appends_rotated {Img : Type} (svdRot : List Pt → Rot)
    (t : PTemplate Img)
    (hp : t.points.isEmpty = false) (hr : t.rects.isEmpty = false) :
    (procrustesProject svdRot true t).pointsOf =
      t.points ++ (procrustesNormalized t).map (applyRot (svdRot (procrustesNormalized t))) := by
  unfold procrustesProject
  simp [hp, hr, PResult.pointsOf]

/-- Witness for procrustes_warp_appends_rotated at the concrete record cexT4. -/
theorem procrustes_warp_appends_rotated_witness :
    (procrustesProject rotId true cexT4).pointsOf =
      cexT4.points ++ (procrustesNormalized cexT4).map (applyRot (rotId (procrustesNormalized cexT4))) :=
  procrustes_warp_appends_rotated rotId cexT4 (by simp [cexT4]) (by simp [cexT4])

/-- C1 counterexample: a point set whose centered norm is zero (all five
full points coincide at (1,1)) does NOT abort alignment: project divides by
the degenerate norm and returns a non-fatal result. -/
theorem procrustes_degenerate_no_abort :
    procrustesNorm cexT1 = 0 ∧ (procrustesProject rotId true cexT1).isFatal = false := by
  constructor
  · have h0 : flatNormSq (centerPts (fullPointSet cexT1)) = 0 := by
      simp [flatNormSq, centerPts, fullPointSet, cexT1, PRect.corners, meanPt]
      norm_num
    simp [procrustesNorm, flatNorm, h0, Real.sqrt_zero]
  · simp [procrustesProject, cexT1, PResult.isFatal]

/-- C1 (amended): normalization performs no degeneracy check.  Alignment
inference never aborts: project returns a non-fatal (warned or ok) result
for every input, dividing by the norm unconditionally even when it is zero;
and training aborts exactly when no usable record exists, independently of
any degenerate norm. -/
theorem procrustes_no_degeneracy_check :
    (∀ (Img : Type) (svdRot : List Pt → Rot) (warp : Bool) (t : PTemplate Img),
        (procrustesProject svdRot warp t).isFatal = false)
    ∧ (∀ data : List TrainRec,
        (procrustesTrain data).isFatal = (data.filter usableRec).isEmpty) := by
  constructor
  · intro Img svdRot warp t
    unfold procrustesProject
    cases hb : (t.points.isEmpty || t.rects.isEmpty) <;>
      cases warp <;> simp [hb, PResult.isFatal]
  · intro data
    unfold procrustesTrain
    have hmap : ((data.filter usableRec).map fun r => normalizePoints (trainFull r)).isEmpty
        = (data.filter usableRec).isEmpty := by
      cases data.filter usableRec <;> simp
    cases he : (data.filter usableRec).isEmpty <;>
      simp [hmap, he, TrainResult.isFatal]

theorem filter_usable_empty_iff (data : List TrainRec) :
    (data.filter usableRec).isEmpty = true ↔ ∀ r ∈ data, r.points = [] ∨ r.rects = [] := by
  rw [List.isEmpty_iff, List.filter_eq_nil_iff]
  refine forall_congr' fun r => forall_congr' fun _ => ?_
  simp [usableRec, List.isEmpty_iff]
  tauto

/-- C6: training fails fatally, producing no mean shape, exactly when no
training record has both a nonempty point list and at least one rect;
records lacking either are skipped, and one usable record suffices. -/
theorem procrustes_train_fatal_iff (data : List TrainRec) :
    (procrustesTrain data).isFatal = true ↔ ∀ r ∈ data, r.points = [] ∨ r.rects = [] := by
  rw [← filter_usable_empty_iff]
  unfold procrustesTrain
  have hmap : ((data.filter usableRec).map fun r => normalizePoints (trainFull r)).isEmpty
      = (data.filter usableRec).isEmpty := by
    cases data.filter usableRec <;> simp
  cases he : (data.filter usableRec).isEmpty <;>
    simp [hmap, he, TrainResult.isFatal]

theorem centerPts_sum_fst (ps : List Pt) (h : (ps.length : ℝ) ≠ 0) :
    ((centerPts ps).map Prod.fst).sum = 0 := by
  have h1 : ((centerPts ps).map Prod.fst).sum
      = (ps.map Prod.fst).sum - ps.length * (meanPt ps).1 := by
    unfold centerPts
    rw [List.map_map]
    have h2 : (Prod.fst ∘ fun p : Pt => (p.1 - (meanPt ps).1, p.2 - (meanPt ps).2))
        = fun p : Pt => Prod.fst p - (fun _ : Pt => (meanPt ps).1) p := rfl
    rw [h2, listSumMapSub, listSumMapConst]
  have hm : (meanPt ps).1 = (ps.map Prod.fst).sum / (ps.length : ℝ) := rfl
  rw [h1, hm]
  field_simp

theorem centerPts_sum_snd (ps : List Pt) (h : (ps.length : ℝ) ≠ 0) :
    ((centerPts ps).map Prod.snd).sum = 0 := by
  have h1 : ((centerPts ps).map Prod.snd).sum
      = (ps.map Prod.snd).sum - ps.length * (meanPt ps).2 := by
    unfold centerPts
    rw [List.map_map]
    have h2 : (Prod.snd ∘ fun p : Pt => (p.1 - (meanPt ps).1, p.2 - (meanPt ps).2))
        = fun p : Pt => Prod.snd p - (fun _ : Pt => (meanPt ps).2) p := rfl
    rw [h2, listSumMapSub, listSumMapConst]
  have hm : (meanPt ps).2 = (ps.map Prod.snd).sum / (ps.length : ℝ) := rfl
  rw [h1, hm]
  field_simp

/-- C7: for every point set with nonzero centered norm, normalization
(subtract the centroid, divide by the flattened L2 norm of the centered
list) yields a point set with centroid (0,0) and flattened L2 norm 1. -/
theorem normalize_centroid_and_norm (ps : List Pt)
    (h : flatNorm (centerPts ps) ≠ 0) :
    meanPt (normalizePoints ps) = ((0 : ℝ), (0 : ℝ)) ∧
      flatNorm (normalizePoints ps) = 1 := by
  have hS : flatNormSq (centerPts ps) ≠ 0 := by
    intro h0
    exact h (by simp [flatNorm, h0, Real.sqrt_zero])
  have hne : ps ≠ [] := by
    intro h0
    subst h0
    exact hS (by simp [centerPts, flatNormSq])
  have hlen : (ps.length : ℝ) ≠ 0 :=
    Nat.cast_ne_zero.mpr (List.length_pos.mpr hne).ne'
  constructor
  · have hfst : ((normalizePoints ps).map Prod.fst).sum = 0 := by
      unfold normalizePoints
      rw [List.map_map]
      have h2 : (Prod.fst ∘ fun p : Pt =>
          (p.1 / flatNorm (centerPts ps), p.2 / flatNorm (centerPts ps)))
          = fun p : Pt => Prod.fst p / flatNorm (centerPts ps) := rfl
      rw [h2, listSumMapDiv, centerPts_sum_fst ps hlen, zero_div]
    have hsnd : ((normalizePoints ps).map Prod.snd).sum = 0 := by
      unfold normalizePoints
      rw [List.map_map]
      have h2 : (Prod.snd ∘ fun p : Pt =>
          (p.1 / flatNorm (centerPts ps), p.2 / flatNorm (centerPts ps)))
          = fun p : Pt => Prod.snd p / flatNorm (centerPts ps) := rfl
      rw [h2, listSumMapDiv, centerPts_sum_snd ps hlen, zero_div]
    unfold meanPt
    rw [hfst, hsnd]
    simp
  · have hsq : flatNormSq (normalizePoints ps)
        = flatNormSq (centerPts ps) / (flatNorm (centerPts ps)) ^ 2 := by
      unfold normalizePoints flatNormSq
      rw [List.map_map]
      have h2 : ((fun p : Pt => p.1 ^ 2 + p.2 ^ 2) ∘ fun p : Pt =>
          (p.1 / flatNorm (centerPts ps), p.2 / flatNorm (centerPts ps)))
          = fun p : Pt => (fun q : Pt => q.1 ^ 2 + q.2 ^ 2) p / (flatNorm (centerPts ps)) ^ 2 := by
        funext p
        simp only [Function.comp_apply]
        rw [div_pow, div_pow, div_add_div_same]
      rw [h2, listSumMapDiv]
    have hNsq : (flatNorm (centerPts ps)) ^ 2 = flatNormSq (centerPts ps) :=
      Real.sq_sqrt (flatNormSq_nonneg _)
    show Real.sqrt (flatNormSq (normalizePoints ps)) = 1
    rw [hsq, hNsq, div_self hS, Real.sqrt_one]

/-- Witness for normalize_centroid_and_norm at the concrete point set ps7. -/
theorem normalize_centroid_and_norm_witness :
    meanPt (normalizePoints ps7) = ((0 : ℝ), (0 : ℝ)) ∧
      flatNorm (normalizePoints ps7) = 1 :=
  normalize_centroid_and_norm ps7 (by
    have h2 : flatNormSq (centerPts ps7) = 2 := by
      simp [flatNormSq, centerPts, meanPt, ps7]
      norm_num
    show Real.sqrt (flatNormSq (centerPts ps7)) ≠ 0
    rw [h2]
    positivity)

/-! ## Claims about DelaunayTransform -/

theorem validTriangles_mem (cols rows : ℕ) (tris : List DTri) (p : QPt)
    (hp : p ∈ validTriangles cols rows tris) :
    ∃ tri ∈ tris, triValid cols rows tri = true ∧ p ∈ tri.vertices := by
  induction tris with
  | nil => simp [validTriangles] at hp
  | cons tri rest ih =>
      by_cases hv : triValid cols rows tri = true
      · rw [validTriangles, if_pos hv] at hp
        rcases List.mem_append.mp hp with h1 | h2
        · exact ⟨tri, List.mem_cons_self .., hv, h1⟩
        · obtain ⟨u, hu, huv, hup⟩ := ih h2
          exact ⟨u, List.mem_cons_of_mem _ hu, huv, hup⟩
      · rw [validTriangles, if_neg hv] at hp
        obtain ⟨u, hu, huv, hup⟩ := ih hp
        exact ⟨u, List.mem_cons_of_mem _ hu, huv, hup⟩

theorem validTriangles_length (cols rows : ℕ) (tris : List DTri) :
    (validTriangles cols rows tris).length % 3 = 0 := by
  induction tris with
  | nil => simp [validTriangles]
  | cons tri rest ih =>
      by_cases hv : triValid cols rows tri = true
      · rw [validTriangles, if_pos hv]
        simp only [List.length_append, DTri.vertices, List.length_cons, List.length_nil]
        omega
      · rw [validTriangles, if_neg hv]
        exact ih

/-- On the success path the stored DelaunayTriangles list is the filtered
flattened triangle list, and all the full points passed the insertion
check. -/
theorem delaunayProject_ok_inv {Img : Type} (subdiv : List QPt → ℕ → ℕ → List DTri)
    (warpImg : DTemplate Img → List QPt → Img) (newRect : DTemplate Img → List QPt → QRect)
    (warp : Bool) (t : DTemplate Img) (t' : DTemplate Img)
    (h : delaunayProject subdiv warpImg newRect warp t = .ok t') :
    t.points.isEmpty = false ∧
    (∀ p ∈ dFullPoints t, oobPoint t.cols t.rows p = false) ∧
    t'.triangles = some (validTriangles t.cols t.rows (subdiv (dFullPoints t) t.cols t.rows)) := by
  unfold delaunayProject at h
  cases hb : (t.points.isEmpty || t.rects.isEmpty) with
  | true => rw [hb] at h; simp at h
  | false =>
      rw [hb] at h
      simp only [Bool.false_eq_true, if_false] at h
      cases ha : (dFullPoints t).any (oobPoint t.cols t.rows) with
      | true => rw [ha] at h; simp at h
      | false =>
          rw [ha] at h
          simp only [Bool.false_eq_true, if_false] at h
          refine ⟨by simpa using (Bool.or_eq_false_iff.mp hb).1, ?_, ?_⟩
          · intro p hp
            have := (List.any_eq_false (p := oobPoint t.cols t.rows)).mp ha p hp
            simpa using this
          · cases warp with
            | true => simp at h; rw [← h]
            | false => simp at h; rw [← h]

/-- C3: whenever the triangulation succeeds (so every inserted vertex passed
the strict insertion check 0 <= x < cols, 0 <= y < rows), every triangle
surviving the line-199 filter has all three vertices strictly inside the
image, even though the filter itself only rejects vertices outside the
closed box: triangle vertices are either inserted points (strictly inside)
or Subdiv2D virtual vertices, and the latter always fail the closed-box
test. -/
theorem delaunay_surviving_triangles_strict {Img : Type}
    (subdiv : List QPt → ℕ → ℕ → List DTri)
    (warpImg : DTemplate Img → List QPt → Img) (newRect : DTemplate Img → List QPt → QRect)
    (warp : Bool) (t : DTemplate Img) (t' : DTemplate Img)
    (hsub : ∀ tri ∈ subdiv (dFullPoints t) t.cols t.rows, ∀ v ∈ tri.vertices,
        v ∈ dFullPoints t ∨ v ∈ virtualPoints t.cols t.rows)
    (h : delaunayProject subdiv warpImg newRect warp t = .ok t') :
    ∀ p ∈ t'.triangles.getD [], 0 ≤ p.1 ∧ p.1 < (t.cols : ℚ) ∧ 0 ≤ p.2 ∧ p.2 < (t.rows : ℚ) := by
  obtain ⟨hpts, hin, htris⟩ := delaunayProject_ok_inv _ _ _ _ _ _ h
  intro p hp
  rw [htris] at hp
  simp only [Option.getD_some] at hp
  obtain ⟨tri, htri, hvalid, hpv⟩ := validTriangles_mem _ _ _ _ hp
  have hfilter := List.all_eq_true.mp hvalid p hpv
  simp only [Bool.not_eq_true', Bool.or_eq_false_iff, decide_eq_false_iff_not] at hfilter
  rcases hsub tri htri p hpv with hfull | hvirt
  · have hok := hin p hfull
    simp only [oobPoint, Bool.or_eq_false_iff, decide_eq_false_iff_not] at hok
    push_neg at hok
    exact ⟨hok.1.1.1, hok.2, hok.1.1.2, hok.1.2⟩
  · exfalso
    obtain ⟨q, hq⟩ : ∃ q, q ∈ dFullPoints t := by
      cases hql : t.points with
      | nil => rw [hql] at hpts; simp at hpts
      | cons a l => exact ⟨a, by simp [dFullPoints, hql]⟩
    have hqok := hin q hq
    simp only [oobPoint, Bool.or_eq_false_iff, decide_eq_false_iff_not] at hqok
    push_neg at hqok
    have hc1 : (1 : ℚ) ≤ (t.cols : ℚ) := by
      have : (0 : ℚ) < (t.cols : ℚ) := lt_of_le_of_lt hqok.1.1.1 hqok.2
      exact_mod_cast Nat.one_le_iff_ne_zero.mpr (by exact_mod_cast this.ne')
    have hr1 : (1 : ℚ) ≤ (t.rows : ℚ) := by
      have : (0 : ℚ) < (t.rows : ℚ) := lt_of_le_of_lt hqok.1.1.2 hqok.1.2
      exact_mod_cast Nat.one_le_iff_ne_zero.mpr (by exact_mod_cast this.ne')
    have hmc : (t.cols : ℚ) ≤ ((max t.cols t.rows : ℕ) : ℚ) := by
      exact_mod_cast le_max_left t.cols t.rows
    have hmr : (t.rows : ℚ) ≤ ((max t.cols t.rows : ℕ) : ℚ) := by
      exact_mod_cast le_max_right t.cols t.rows
    simp only [virtualPoints, List.mem_cons, List.not_mem_nil, or_false] at hvirt
    rcases hvirt with rfl | rfl | rfl
    · exact hfilter.1.1.1 (by push_cast at hmc ⊢; linarith)
    · exact hfilter.1.1.2 (by push_cast at hmr ⊢; linarith)
    · exact hfilter.1.2 (by push_cast at hmc ⊢; linarith)

/-- Characterization of the insertion-time check. -/
theorem oobPoint_eq_false_iff (cols rows : ℕ) (p : QPt) :
    oobPoint cols rows p = false ↔
      0 ≤ p.1 ∧ p.1 < (cols : ℚ) ∧ 0 ≤ p.2 ∧ p.2 < (rows : ℚ) := by
  simp only [oobPoint, Bool.or_eq_false_iff, decide_eq_false_iff_not, not_lt, not_le]
  tauto

/-- Evaluation of the success path behind the two guards, used to discharge
witness hypotheses on concrete records. -/
theorem delaunayProject_ok_eval {Img : Type} (subdiv : List QPt → ℕ → ℕ → List DTri)
    (warpImg : DTemplate Img → List QPt → Img) (newRect : DTemplate Img → List QPt → QRect)
    (warp : Bool) (t : DTemplate Img)
    (hb : (t.points.isEmpty || t.rects.isEmpty) = false)
    (ha : (dFullPoints t).any (oobPoint t.cols t.rows) = false) :
    delaunayProject subdiv warpImg newRect warp t =
      (if warp then
        DResult.ok { t with
          img := warpImg t (validTriangles t.cols t.rows (subdiv (dFullPoints t) t.cols t.rows)),
          rects := [newRect t (validTriangles t.cols t.rows (subdiv (dFullPoints t) t.cols t.rows))],
          triangles := some (validTriangles t.cols t.rows (subdiv (dFullPoints t) t.cols t.rows)) }
      else
        DResult.ok { t with
          triangles := some (validTriangles t.cols t.rows (subdiv (dFullPoints t) t.cols t.rows)) }) := by
  unfold delaunayProject
  simp only [hb, ha, Bool.false_eq_true, if_false]

theorem tDel_guards : (tDel.points.isEmpty || tDel.rects.isEmpty) = false ∧
    (dFullPoints tDel).any (oobPoint tDel.cols tDel.rows) = false := by
  refine ⟨rfl, ?_⟩
  rw [List.any_eq_false]
  intro p hp
  simp only [dFullPoints, tDel, QRect.corners, List.getLastD_cons, List.getLastD_nil,
             List.mem_append, List.mem_cons, List.not_mem_nil, or_false] at hp
  rw [Bool.not_eq_true, oobPoint_eq_false_iff]
  rcases hp with rfl | rfl | rfl | rfl | rfl <;> norm_num [tDel]

theorem tDel_validTriangles :
    validTriangles tDel.cols tDel.rows (subdivW (dFullPoints tDel) tDel.cols tDel.rows)
      = [(1, 1), (2, 2), (5, 5)] := by
  have ht1 : triValid tDel.cols tDel.rows ⟨(1, 1), (2, 2), (5, 5)⟩ = true := by
    simp only [triValid, DTri.vertices, tDel, List.all_cons, List.all_nil,
               Bool.and_true, Bool.and_eq_true, Bool.not_eq_true',
               Bool.or_eq_false_iff, decide_eq_false_iff_not]
    norm_num
  have ht2 : triValid tDel.cols tDel.rows ⟨(30, 0), (1, 1), (2, 2)⟩ = false := by
    simp only [triValid, DTri.vertices, tDel, List.all_cons, Bool.and_eq_false_iff]
    left
    simp only [Bool.not_eq_false', Bool.or_eq_true, decide_eq_true_eq]
    norm_num
  simp only [subdivW, validTriangles, DTri.vertices, ht1, ht2, eq_self_iff_true,
             if_true, Bool.false_eq_true, if_false, List.cons_append, List.nil_append]

/-- Witness for delaunay_surviving_triangles_strict at the concrete record
tDel and stand-in subdivision subdivW, evaluated at the surviving vertex
(1,1). -/
theorem delaunay_surviving_triangles_strict_witness :
    0 ≤ (((1 : ℚ), (1 : ℚ)) : QPt).1 ∧ (((1 : ℚ), (1 : ℚ)) : QPt).1 < (tDel.cols : ℚ) ∧
      0 ≤ (((1 : ℚ), (1 : ℚ)) : QPt).2 ∧ (((1 : ℚ), (1 : ℚ)) : QPt).2 < (tDel.rows : ℚ) := by
  have h := delaunayProject_ok_eval subdivW warpImgW newRectW false tDel
    tDel_guards.1 tDel_guards.2
  rw [if_neg (by simp)] at h
  refine delaunay_surviving_triangles_strict subdivW warpImgW newRectW false tDel _ ?_ h
    ((1 : ℚ), (1 : ℚ)) ?_
  · have hfull : (((1:ℚ),(1:ℚ)) : QPt) ∈ dFullPoints tDel ∧
        (((2:ℚ),(2:ℚ)) : QPt) ∈ dFullPoints tDel ∧
        (((5:ℚ),(5:ℚ)) : QPt) ∈ dFullPoints tDel := by
      refine ⟨?_, ?_, ?_⟩ <;>
        simp only [dFullPoints, tDel, QRect.corners, List.mem_append, List.mem_cons,
                   List.not_mem_nil, or_false, Prod.mk.injEq] <;>
        norm_num
    have hvirt30 : (((30:ℚ), (0:ℚ)) : QPt) ∈ virtualPoints tDel.cols tDel.rows := by
      simp only [virtualPoints, tDel, List.mem_cons, List.not_mem_nil, or_false,
                 Prod.mk.injEq]
      norm_num
    intro tri htri v hv
    simp only [subdivW, List.mem_cons, List.not_mem_nil, or_false] at htri
    rcases htri with rfl | rfl <;>
      simp only [DTri.vertices, List.mem_cons, List.not_mem_nil, or_false] at hv
    · rcases hv with rfl | rfl | rfl
      · exact Or.inl hfull.1
      · exact Or.inl hfull.2.1
      · exact Or.inl hfull.2.2
    · rcases hv with rfl | rfl | rfl
      · exact Or.inr hvirt30
      · exact Or.inl hfull.1
      · exact Or.inl hfull.2.1
  · simp [Option.getD_some, tDel_validTriangles]

/-- C5: a record containing an out-of-bounds point (a landmark, or a corner
of the appended bounding box) makes the triangulation fail non-fatally: the
original record is emitted unchanged together with a warning, and no
failure escapes (the embedded projection is total). -/
theorem delaunay_oob_passthrough {Img : Type} (subdiv : List QPt → ℕ → ℕ → List DTri)
    (warpImg : DTemplate Img → List QPt → Img) (newRect : DTemplate Img → List QPt → QRect)
    (warp : Bool) (t : DTemplate Img)
    (hoob : ∃ p, (p ∈ t.points ∨ (t.rects ≠ [] ∧ p ∈ (t.rects.getLastD default).corners))
        ∧ oobPoint t.cols t.rows p = true) :
    (delaunayProject subdiv warpImg newRect warp t).isWarnPassthroughOf t := by
  obtain ⟨p, hmem, hbad⟩ := hoob
  unfold delaunayProject
  cases hb : (t.points.isEmpty || t.rects.isEmpty) with
  | true => simp [DResult.isWarnPassthroughOf]
  | false =>
      have hfull : p ∈ dFullPoints t := by
        rcases hmem with h1 | ⟨-, h2⟩
        · exact List.mem_append.mpr (Or.inl h1)
        · exact List.mem_append.mpr (Or.inr h2)
      have ha : (dFullPoints t).any (oobPoint t.cols t.rows) = true :=
        List.any_eq_true.mpr ⟨p, hfull, hbad⟩
      simp [ha, DResult.isWarnPassthroughOf]

/-- Witness for delaunay_oob_passthrough at the concrete record tOob, whose
landmark (-1,2) has negative x. -/
theorem delaunay_oob_passthrough_witness :
    (delaunayProject subdivW warpImgW newRectW true tOob).isWarnPassthroughOf tOob :=
  delaunay_oob_passthrough subdivW warpImgW newRectW true tOob
    ⟨(-1, 2), Or.inl (by simp [tOob]), by simp [oobPoint, tOob]⟩

/-- C9: on every path of the triangulation that stores the
DelaunayTriangles list (warp enabled or disabled), the stored flat point
list has length a multiple of three: triangles are appended only as
complete vertex triples. -/
theorem delaunay_triangles_multiple_of_three {Img : Type}
    (subdiv : List QPt → ℕ → ℕ → List DTri)
    (warpImg : DTemplate Img → List QPt → Img) (newRect : DTemplate Img → List QPt → QRect)
    (warp : Bool) (t : DTemplate Img) (t' : DTemplate Img)
    (h : delaunayProject subdiv warpImg newRect warp t = .ok t') :
    (t'.triangles.getD []).length % 3 = 0 := by
  obtain ⟨-, -, htris⟩ := delaunayProject_ok_inv _ _ _ _ _ _ h
  rw [htris]
  simp only [Option.getD_some]
  exact validTriangles_length _ _ _

/-- Witness for delaunay_triangles_multiple_of_three at the concrete record
tDel with warp enabled. -/
theorem delaunay_triangles_multiple_of_three_witness :
    (({ tDel with
        img := warpImgW tDel (validTriangles tDel.cols tDel.rows
          (subdivW (dFullPoints tDel) tDel.cols tDel.rows)),
        rects := [newRectW tDel (validTriangles tDel.cols tDel.rows
          (subdivW (dFullPoints tDel) tDel.cols tDel.rows))],
        triangles := some (validTriangles tDel.cols tDel.rows
          (subdivW (dFullPoints tDel) tDel.cols tDel.rows)) } :
      DTemplate Unit).triangles.getD []).length % 3 = 0 := by
  have h := delaunayProject_ok_eval subdivW warpImgW newRectW true tDel
    tDel_guards.1 tDel_guards.2
  rw [if_pos rfl] at h
  exact delaunay_triangles_multiple_of_three subdivW warpImgW newRectW true tDel _ h

/-! ## Claim about the compositing loop -/

set_option maxRecDepth 4000 in
theorem land255_of_lt : ∀ x < 256, Nat.land x 255 = x := by decide

theorem compositeAux_append {P : Type} (l₁ l₂ : List ((P → ℕ) × (P → Bool))) :
    ∀ (i : ℕ) (dst : P → ℕ),
      compositeAux i (l₁ ++ l₂) dst
        = compositeAux (i + 3 * l₁.length) l₂ (compositeAux i l₁ dst) := by
  induction l₁ with
  | nil => intro i dst; simp [compositeAux]
  | cons bm rest ih =>
      intro i dst
      simp only [List.cons_append, compositeAux, List.length_cons, List.append_eq]
      rw [ih]
      ring_nf

theorem compositeUpTo_succ {P : Type} (tris : List ((P → ℕ) × (P → Bool))) (n : ℕ)
    (h : n < tris.length) :
    compositeUpTo tris (n + 1)
      = compositeStep (3 * n) (compositeUpTo tris n)
          (tris.getD n (fun _ => 0, fun _ => false)).1
          (tris.getD n (fun _ => 0, fun _ => false)).2 := by
  unfold compositeUpTo compositeLoop
  rw [List.take_succ, List.getElem?_eq_getElem h]
  simp only [Option.toList]
  rw [compositeAux_append]
  have hlen : (tris.take n).length = n := by
    rw [List.length_take]
    omega
  rw [hlen, List.getD_eq_getElem tris _ h]
  simp only [compositeAux, Nat.zero_add]

theorem compositeUpTo_stable {P : Type} (tris : List ((P → ℕ) × (P → Bool))) (n : ℕ)
    (h : tris.length ≤ n) :
    compositeUpTo tris n = compositeLoop tris := by
  unfold compositeUpTo
  rw [List.take_of_length_le h]

theorem compositeAux_le {P : Type} (l : List ((P → ℕ) × (P → Bool))) :
    ∀ (i : ℕ) (dst : P → ℕ), (∀ q, dst q ≤ 255) → ∀ q, compositeAux i l dst q ≤ 255 := by
  induction l with
  | nil => intro i dst h q; exact h q
  | cons bm rest ih =>
      intro i dst h q
      apply ih
      intro q'
      exact min_le_right _ _

theorem compositeUpTo_le {P : Type} (tris : List ((P → ℕ) × (P → Bool))) (n : ℕ) (q : P) :
    compositeUpTo tris n q ≤ 255 :=
  compositeAux_le _ 0 _ (fun _ => by norm_num) q

theorem compositeUpTo_freeze_succ {P : Type} (tris : List ((P → ℕ) × (P → Bool)))
    (n : ℕ) (p : P) (hn : 1 ≤ n) (h : compositeUpTo tris n p ≠ 0) :
    compositeUpTo tris (n + 1) p = compositeUpTo tris n p := by
  rcases Nat.lt_or_ge n tris.length with hlt | hge
  · rw [compositeUpTo_succ tris n hlt]
    unfold compositeStep
    have hsup : suppressMask (3 * n) (compositeUpTo tris n)
        (tris.getD n (fun _ => 0, fun _ => false)).2 p = 0 := by
      unfold suppressMask maskVal
      by_cases hm : (tris.getD n (fun _ => 0, fun _ => false)).2 p = true
      · rw [if_pos hm, if_pos]
        constructor
        · omega
        · rw [land255_of_lt _ (by have := compositeUpTo_le tris n p; omega)]
          exact h
      · rw [if_neg hm]
        have hz : Nat.land (compositeUpTo tris n p) 0 = 0 := Nat.and_zero _
        rw [if_neg]
        intro hc
        exact hc.2 hz
    rw [hsup]
    have hz2 : Nat.land ((tris.getD n (fun _ => 0, fun _ => false)).1 p) 0 = 0 :=
      Nat.and_zero _
    rw [hz2]
    unfold satAdd
    rw [Nat.add_zero]
    exact min_eq_left (compositeUpTo_le tris n p)
  · rw [compositeUpTo_stable tris (n + 1) (by omega), compositeUpTo_stable tris n hge]

theorem compositeUpTo_freeze {P : Type} (tris : List ((P → ℕ) × (P → Bool)))
    (m : ℕ) (p : P) (hm : 1 ≤ m) (h : compositeUpTo tris m p ≠ 0) :
    ∀ n, m ≤ n → compositeUpTo tris n p = compositeUpTo tris m p := by
  intro n
  induction n with
  | zero => intro hn; omega
  | succ k ih =>
      intro hn
      rcases Nat.lt_or_ge m (k + 1) with hlt | hge2
      · have hk : m ≤ k := by omega
        have hik := ih hk
        have hk1 : 1 ≤ k := by omega
        have hknz : compositeUpTo tris k p ≠ 0 := by rw [hik]; exact h
        rw [compositeUpTo_freeze_succ tris k p hk1 hknz, hik]
      · have heq : m = k + 1 := by omega
        rw [heq]

/-- C2: after compositing all triangles in order, every non-zero output
pixel received its value from exactly one triangle.  There is a unique step
k at which the pixel goes from zero to non-zero; the value written there is
triangle k's resampled buffer masked by its own rasterized triangle (never
a blend of two buffers), and every later triangle leaves the pixel
untouched, because the overlap rule zeroes mask pixels that are already
non-zero in the accumulated output. -/
theorem delaunay_overlap_first_writer_wins {P : Type}
    (tris : List ((P → ℕ) × (P → Bool))) (p : P)
    (hnz : compositeLoop tris p ≠ 0) :
    ∃! k : ℕ, k < tris.length ∧
      compositeUpTo tris k p = 0 ∧
      compositeUpTo tris (k + 1) p
        = Nat.land ((tris.getD k (fun _ => 0, fun _ => false)).1 p)
            (maskVal (tris.getD k (fun _ => 0, fun _ => false)).2 p) ∧
      compositeUpTo tris (k + 1) p ≠ 0 ∧
      compositeLoop tris p = compositeUpTo tris (k + 1) p := by
  have hlen : 1 ≤ tris.length := by
    by_contra hc
    push_neg at hc
    have hemp : tris = [] := List.length_eq_zero.mp (by omega)
    apply hnz
    rw [hemp]
    rfl
  have hfin : compositeUpTo tris tris.length p = compositeLoop tris p :=
    congrFun (compositeUpTo_stable tris tris.length le_rfl) p
  have hQex : ∃ n, compositeUpTo tris (n + 1) p ≠ 0 := by
    refine ⟨tris.length - 1, ?_⟩
    have heq : tris.length - 1 + 1 = tris.length := by omega
    rw [heq, hfin]
    exact hnz
  set k := Nat.find hQex with hkdef
  have hkspec : compositeUpTo tris (k + 1) p ≠ 0 := Nat.find_spec hQex
  have hk0 : compositeUpTo tris k p = 0 := by
    rcases Nat.eq_zero_or_pos k with hz | hpos
    · rw [hz]
      rfl
    · have hmin := Nat.find_min hQex (m := k - 1) (by omega)
      have h2 : compositeUpTo tris (k - 1 + 1) p = 0 := not_ne_iff.mp hmin
      have h3 : k - 1 + 1 = k := by omega
      rwa [h3] at h2
  have hklt : k < tris.length := by
    by_contra hc
    push_neg at hc
    have := compositeUpTo_stable tris k hc
    rw [this] at hk0
    exact hnz hk0
  have hval : compositeUpTo tris (k + 1) p
      = Nat.land ((tris.getD k (fun _ => 0, fun _ => false)).1 p)
          (maskVal (tris.getD k (fun _ => 0, fun _ => false)).2 p) := by
    rw [compositeUpTo_succ tris k hklt]
    unfold compositeStep
    have hsup : suppressMask (3 * k) (compositeUpTo tris k)
        (tris.getD k (fun _ => 0, fun _ => false)).2 p
        = maskVal (tris.getD k (fun _ => 0, fun _ => false)).2 p := by
      unfold suppressMask
      rw [hk0]
      have hz : Nat.land 0 (maskVal (tris.getD k (fun _ => 0, fun _ => false)).2 p) = 0 :=
        Nat.zero_and _
      rw [if_neg]
      intro hc
      exact hc.2 hz
    rw [hsup, hk0]
    unfold satAdd
    rw [Nat.zero_add]
    apply min_eq_left
    calc Nat.land ((tris.getD k (fun _ => 0, fun _ => false)).1 p)
          (maskVal (tris.getD k (fun _ => 0, fun _ => false)).2 p)
        ≤ maskVal (tris.getD k (fun _ => 0, fun _ => false)).2 p := Nat.and_le_right
      _ ≤ 255 := by unfold maskVal; split <;> norm_num
  have hfinal : compositeLoop tris p = compositeUpTo tris (k + 1) p := by
    rw [← hfin]
    exact compositeUpTo_freeze tris (k + 1) p (by omega) hkspec tris.length (by omega)
  refine ⟨k, ⟨hklt, hk0, hval, hkspec, hfinal⟩, ?_⟩
  intro j hj
  obtain ⟨hjlt, hj0, hjval, hjnz, hjfin⟩ := hj
  have hkj : k ≤ j := Nat.find_min' hQex hjnz
  rcases Nat.lt_or_ge k j with hlt | hge
  · exfalso
    have := compositeUpTo_freeze tris (k + 1) p (by omega) hkspec j (by omega)
    rw [hj0] at this
    exact hkspec this.symm
  · omega

/-- Witness for delaunay_overlap_first_writer_wins on the one-pixel,
one-triangle input trisW. -/
theorem delaunay_overlap_first_writer_wins_witness :
    ∃! k : ℕ, k < trisW.length ∧
      compositeUpTo trisW k (0 : Fin 1) = 0 ∧
      compositeUpTo trisW (k + 1) (0 : Fin 1)
        = Nat.land ((trisW.getD k (fun _ => 0, fun _ => false)).1 0)
            (maskVal (trisW.getD k (fun _ => 0, fun _ => false)).2 0) ∧
      compositeUpTo trisW (k + 1) (0 : Fin 1) ≠ 0 ∧
      compositeLoop trisW (0 : Fin 1) = compositeUpTo trisW (k + 1) (0 : Fin 1) :=
  delaunay_overlap_first_writer_wins trisW 0 (by decide)
